import Mathlib

/-
Verification of the crawl-py dataset pipeline against its specification.

The Python sources are shallowly embedded: Python dicts holding ledger
records become structures, the filesystem becomes an association list
from path strings to file contents, and the external tools (SHA-256,
ffmpeg, whisper, json.loads, sqlite) become function parameters, since
the code only ever branches on their results.
-/

namespace CrawlPy

/-- A metadata-ledger record as written by `process_audio_files` in
`app/preprocess.py` (fields `file_name`, `shasum`, `original_filename`,
`transcription`).  `shasum` is an `Option` because `calculate_shasum`
returns `None` on an I/O error and the value is stored as-is. -/
structure Entry where
  file_name : String
  shasum : Option String
  original_filename : String
  transcription : String
deriving DecidableEq

/-- A metadata record as written by `transcribe_and_update_metadata` in
`app/transcribe_improved.py` (fields `file_name`, `text`, `class_labels`). -/
structure Entry2 where
  file_name : String
  text : String
  class_labels : List String
deriving DecidableEq

/-- In-place update `entry['transcription'] = t` from `app/transcribe.py`. -/
def setTranscription (e : Entry) (t : String) : Entry :=
  ⟨e.file_name, e.shasum, e.original_filename, t⟩

/-- Filesystem model: association list from path to file content. -/
def fsLookup {C : Type} : List (String × C) → String → Option C
  | [], _ => none
  | (q, c) :: fs, p => if q = p then some c else fsLookup fs p

/-- Deleting a file (`os.remove`). -/
def fsErase {C : Type} : List (String × C) → String → List (String × C)
  | [], _ => []
  | (q, c) :: fs, p => if q = p then fsErase fs p else (q, c) :: fsErase fs p

/-- Writing a file, overwriting any previous content. -/
def fsInsert {C : Type} (fs : List (String × C)) (p : String) (c : C) :
    List (String × C) :=
  (p, c) :: fsErase fs p

/-- The list comprehension of `app/preprocess.py` lines 150-153: drop every
record whose `file_name` equals the given key. -/
def removeKey : List Entry → String → List Entry
  | [], _ => []
  | e :: md, k => if e.file_name = k then removeKey md k else e :: removeKey md k

/-- Ledger upsert, `app/preprocess.py` lines 149-156: remove every record
with the same `file_name`, then append the new record. -/
def upsert (md : List Entry) (e : Entry) : List Entry :=
  removeKey md e.file_name ++ [e]

/-- `next((entry for entry in metadata if entry.get('file_name') == k), None)`
from `app/preprocess.py` lines 119-123: first record with the given key. -/
def findEntry : List Entry → String → Option Entry
  | [], _ => none
  | e :: md, k => if e.file_name = k then some e else findEntry md k

/-- The ledger uniqueness invariant: at most one record per `file_name`. -/
@[reducible] def UniqueKeys (md : List Entry) : Prop :=
  (md.map (fun e => e.file_name)).Nodup

/-- `filename.count('_')` on the character list of the name. -/
def underscoreCount (cs : List Char) : Nat :=
  (cs.filter (fun c => c = '_')).length

/-- `sanitize_filename` from `app/preprocess.py` lines 85-93, on character
lists.  In `re.match(r'^(.+)_([^_]+)$', name)`, group 2's negated class
`[^_]` matches any character except an underscore — newlines included —
and extends greedily to the true end of the string, so the only viable
split point is the last underscore; group 1's `.` cannot cross a newline,
so the part before that underscore must be newline-free.  The match
therefore succeeds exactly when the part before the last underscore is
nonempty and newline-free and the part after it is nonempty, and the
groups are those two parts (rejoining to the original name).  If the name
has at most three underscores and the match succeeds, return the two
groups; otherwise return the name itself paired with the empty string. -/
def sanitize_filename (cs : List Char) : List Char × List Char :=
  if underscoreCount cs ≤ 3 then
    let sufRev := cs.reverse.takeWhile (fun c => c ≠ '_')
    let rest := cs.reverse.dropWhile (fun c => c ≠ '_')
    if rest = [] ∨ sufRev = [] ∨ rest.tail = [] ∨ '\n' ∈ rest.tail then
      (cs, [])
    else (rest.tail.reverse, sufRev.reverse)
  else (cs, [])

/-- The regex `^(.+)_([^_]+)$` succeeds on `cs`: the name splits around an
underscore into a nonempty, newline-free group 1 and a nonempty,
underscore-free group 2 (which may contain newlines, since the negated
class `[^_]` matches them). -/
def HasMatch (cs : List Char) : Prop :=
  ∃ a b, cs = a ++ '_' :: b ∧ a ≠ [] ∧ b ≠ [] ∧ '_' ∉ b ∧ '\n' ∉ a

/-- `pathlib.PurePath.name`: the final path component. -/
def baseName (p : String) : String :=
  ⟨(p.toList.reverse.takeWhile (fun c => c ≠ '/')).reverse⟩

/-- The `safe_id` computed for an input path in `process_audio_files`. -/
def safeId (p : String) : String :=
  ⟨(sanitize_filename (baseName p).toList).1⟩

/-- The `original_title` computed for an input path in `process_audio_files`. -/
def origTitle (p : String) : String :=
  ⟨(sanitize_filename (baseName p).toList).2⟩

/-- The ledger key `f"data/(safe_id).wav"` for an input path. -/
def ledKey (p : String) : String :=
  "data/" ++ safeId p ++ ".wav"

/-- The output path `os.path.join(root_dataset_dir, f"(safe_id).wav")`. -/
def outPath (root p : String) : String :=
  root ++ "/" ++ safeId p ++ ".wav"

/-- External collaborators of the ingest coordinator: `calculate_shasum`
(a SHA-256 digest of file contents of type `C`) and ffmpeg conversion
(`convert_audio_to_wav`; `none` models a non-zero exit / exception, in
which case the function returns `False` and writes nothing durable). -/
structure PEnv (C : Type) where
  hash : C → String
  convert : C → Option C

/-- State of the ingest coordinator: the filesystem and the metadata
ledger (kept in memory and mirrored to disk on every successful write). -/
structure PState (C : Type) where
  files : List (String × C)
  metadata : List Entry
deriving DecidableEq

/-- The skip test of `app/preprocess.py` line 132:
`existing_entry and existing_entry.get('shasum') == current_hash`, where
`current_hash` is the hash of the raw input file's bytes. -/
def skipCheck {C : Type} (env : PEnv C) (md : List Entry) (p : String) (c : C) :
    Bool :=
  match findEntry md (ledKey p) with
  | some e => decide (e.shasum = some (env.hash c))
  | none => false

/-- One iteration of the loop of `process_audio_files`
(`app/preprocess.py` lines 110-171) on candidate path `p`:
hash the input (skip the candidate if the file is unreadable), skip if an
existing record's stored `shasum` equals the input hash, otherwise convert;
on conversion success hash the converted output, upsert the record, remove
the input file; on conversion failure do nothing. -/
def stepFile {C : Type} (env : PEnv C) (root : String) (s : PState C)
    (p : String) : PState C :=
  match fsLookup s.files p with
  | none => s
  | some c =>
    if skipCheck env s.metadata p c then s
    else
      match env.convert c with
      | none => s
      | some d =>
        let files1 := fsInsert s.files (outPath root p) d
        let fileShasum := (fsLookup files1 (outPath root p)).map env.hash
        let entry : Entry := ⟨ledKey p, fileShasum, origTitle p, ""⟩
        ⟨fsErase files1 p, upsert s.metadata entry⟩

/-- Number of `convert_audio_to_wav` invocations performed by one loop
iteration of `process_audio_files` for candidate `p`: zero when the hash
fails or the skip test fires, one otherwise (whether or not ffmpeg
succeeds). -/
def stepConvCount {C : Type} (env : PEnv C) (s : PState C) (p : String) : Nat :=
  match fsLookup s.files p with
  | none => 0
  | some c => if skipCheck env s.metadata p c then 0 else 1

/-- `process_audio_files` from `app/preprocess.py`: fold the per-candidate
iteration over the candidate list. -/
def process_audio_files {C : Type} (env : PEnv C) (root : String)
    (paths : List String) (s : PState C) : PState C :=
  paths.foldl (stepFile env root) s

/-- A candidate is stable in a state when its loop iteration changes
nothing. -/
def Stable {C : Type} (env : PEnv C) (root : String) (s : PState C)
    (p : String) : Prop :=
  stepFile env root s p = s

/-- The sequence of metadata-file contents a reader can observe while
`save_metadata` (`app/transcribe.py` lines 97-114; identically
`app/preprocess.py` lines 162-164) runs: `open(path, 'w')` truncates the
target in place, then the records are serialized one per line in order.
Index `k` is the content visible after `k` lines have been written. -/
def save_metadata_states (ser : Entry → String) (metadata : List Entry) :
    List (List String) :=
  (List.range (metadata.length + 1)).map (fun k => (metadata.take k).map ser)

/-- Python `str.strip()`: remove whitespace from both ends. -/
def pyStrip (s : String) : String :=
  ⟨((s.toList.dropWhile (fun c => c.isWhitespace)).reverse.dropWhile
      (fun c => c.isWhitespace)).reverse⟩

/-- Parsing a list of lines with `json.loads`, modelled by a parameter
`parse`; the first failing line aborts the whole comprehension, as an
exception does in Python. -/
def parseLines {α : Type} (parse : String → Option α) :
    List String → Option (List α)
  | [] => some []
  | l :: ls =>
    match parse l with
    | none => none
    | some e => (parseLines parse ls).map (fun es => e :: es)

/-- The metadata load of `process_audio_files` (`app/preprocess.py` lines
100-107): blank lines are dropped, each remaining line is parsed after
`strip()`, and any parse failure is caught, logged, and leaves the
metadata at its prior value `[]`. -/
def load_metadata_preprocess {α : Type} (parse : String → Option α)
    (lines : List String) : List α :=
  match parseLines (fun l => parse (pyStrip l))
      (lines.filter (fun l => pyStrip l ≠ "")) with
  | some es => es
  | none => []

/-- `load_metadata` from `app/transcribe.py` lines 81-95: every line,
blank lines included, is fed to `json.loads`; a failure is logged and
re-raised, aborting the load. -/
def load_metadata_transcribe {α : Type} (parse : String → Option α)
    (lines : List String) : Except String (List α) :=
  match parseLines parse lines with
  | some es => Except.ok es
  | none => Except.error "Error loading metadata"

/-- A concrete stand-in for `json.loads` on one ledger line, rejecting any
line that is not a brace-delimited object.  It is only used to exhibit
concrete malformed lines (such as the specification's truncated example
line); the load functions themselves are parametric in the parser. -/
def jsonObjectLine (l : String) : Option Unit :=
  if l.toList.head? = some '\x7b' ∧ l.toList.getLast? = some '\x7d' then some ()
  else none

/-- `os.path.join` for a directory without trailing slash and a relative
name, the only case the pipeline uses. -/
def pathJoin (dir name : String) : String :=
  dir ++ "/" ++ name

/-- Merging one worker result into its ledger record
(`app/transcribe.py` lines 146-148): `if transcription:` — the record is
updated only when the result is present and non-empty. -/
def applyOne (r : Option String) (e : Entry) : Entry :=
  match r with
  | some t => if t = "" then e else setTranscription e t
  | none => e

/-- The zip-update of `app/transcribe.py` lines 146-148: walk the full
ledger; each record selected for transcription (empty `transcription`)
consumes the next worker result, other records pass through untouched. -/
def applyResults : List Entry → List (Option String) → List Entry
  | [], _ => []
  | e :: es, rs =>
    if e.transcription = "" then
      match rs with
      | r :: rs' => applyOne r e :: applyResults es rs'
      | [] => e :: applyResults es []
    else e :: applyResults es rs

/-- `process_transcription` from `app/transcribe.py` lines 116-150.
`f` is the outcome of `transcribe_single_file` on a full path: `none`
models a missing file or an exception raised during transcription (both
are caught and logged inside the worker), `some t` a transcript already
stripped.  Records with a transcript are filtered out, the rest are
dispatched, and results are merged back in place. -/
def process_transcription (f : String → Option String) (dataset_dir : String)
    (metadata : List Entry) : List Entry :=
  let to_transcribe := metadata.filter (fun e => e.transcription = "")
  let transcriptions :=
    to_transcribe.map (fun e => f (pathJoin dataset_dir e.file_name))
  applyResults metadata transcriptions

/-- The on-disk metadata file produced by `process_transcription` in
`app/transcribe_improved.py` lines 96-132: records lacking `text` are
selected, the metadata file is cleared (`open(metadata_path, 'w').close()`,
line 116), and each worker appends one line per successful transcription;
the merged in-memory list is returned but never saved (the final
`save_metadata` call is commented out). -/
def process_transcription_improved_disk (f : String → Option String)
    (dataset_dir : String) (metadata : List Entry2) : List Entry2 :=
  let to_transcribe := metadata.filter (fun e => e.text = "")
  to_transcribe.filterMap (fun e =>
    (f (pathJoin dataset_dir e.file_name)).map
      (fun t => ⟨e.file_name, t, ["commercial"]⟩))

/-- `is_video_downloaded` from `app/crawler/db.py` lines 56-66 (and its
twin in `app/crawl.py` lines 71-80).  The parameter is the outcome of the
sqlite interaction: `Except.ok b` means the query ran and `b` says whether
a row with the given id exists (`fetchone() is not None`); `Except.error`
models any exception raised while connecting or querying, which the
function catches, logs, and converts to `False`. -/
def is_video_downloaded (query : Except String Bool) : Bool :=
  match query with
  | Except.ok found => found
  | Except.error _ => false

end CrawlPy

namespace CrawlPy

theorem fsLookup_erase_self {C : Type} (p : String) :
    ∀ fs : List (String × C), fsLookup (fsErase fs p) p = none := by
  intro fs
  induction fs with
  | nil => rfl
  | cons hd tl ih =>
    obtain ⟨a, c⟩ := hd
    simp only [fsErase]
    split_ifs with h
    · exact ih
    · simp only [fsLookup, if_neg h]
      exact ih

theorem fsLookup_erase_ne {C : Type} (p q : String) (h : p ≠ q) :
    ∀ fs : List (String × C), fsLookup (fsErase fs p) q = fsLookup fs q := by
  intro fs
  induction fs with
  | nil => rfl
  | cons hd tl ih =>
    obtain ⟨a, c⟩ := hd
    simp only [fsErase]
    by_cases h1 : a = p
    · rw [if_pos h1, ih]
      have haq : a ≠ q := by rw [h1]; exact h
      simp only [fsLookup, if_neg haq]
    · rw [if_neg h1]
      simp only [fsLookup]
      by_cases h2 : a = q
      · rw [if_pos h2, if_pos h2]
      · rw [if_neg h2, if_neg h2]
        exact ih

theorem fsLookup_insert_self {C : Type} (fs : List (String × C)) (p : String)
    (c : C) : fsLookup (fsInsert fs p c) p = some c := by
  simp [fsInsert, fsLookup]

theorem fsLookup_insert_ne {C : Type} (fs : List (String × C)) (p q : String)
    (c : C) (h : p ≠ q) : fsLookup (fsInsert fs p c) q = fsLookup fs q := by
  simp only [fsInsert, fsLookup, if_neg h]
  exact fsLookup_erase_ne p q h fs

theorem findEntry_removeKey_ne (k k' : String) (h : k' ≠ k) :
    ∀ md : List Entry, findEntry (removeKey md k) k' = findEntry md k' := by
  intro md
  induction md with
  | nil => rfl
  | cons e tl ih =>
    simp only [removeKey]
    by_cases h1 : e.file_name = k
    · rw [if_pos h1, ih]
      have hek : e.file_name ≠ k' := by rw [h1]; exact fun hh => h hh.symm
      simp only [findEntry, if_neg hek]
    · rw [if_neg h1]
      simp only [findEntry]
      by_cases h2 : e.file_name = k'
      · rw [if_pos h2, if_pos h2]
      · rw [if_neg h2, if_neg h2]
        exact ih

theorem findEntry_append (md2 : List Entry) (k : String) :
    ∀ md1 : List Entry, findEntry (md1 ++ md2) k =
      match findEntry md1 k with
      | some e => some e
      | none => findEntry md2 k := by
  intro md1
  induction md1 with
  | nil => rfl
  | cons e tl ih =>
    simp only [List.cons_append, findEntry]
    split_ifs with h1
    · rfl
    · exact ih

theorem findEntry_upsert_ne (md : List Entry) (e : Entry) (k : String)
    (h : k ≠ e.file_name) : findEntry (upsert md e) k = findEntry md k := by
  unfold upsert
  rw [findEntry_append]
  rw [findEntry_removeKey_ne e.file_name k h md]
  cases hf : findEntry md k with
  | some x => rfl
  | none =>
    have hek : e.file_name ≠ k := fun hh => h hh.symm
    simp only [findEntry, if_neg hek]

theorem removeKey_keys_sublist (k : String) :
    ∀ md : List Entry,
      ((removeKey md k).map (fun e => e.file_name)).Sublist
        (md.map (fun e => e.file_name)) := by
  intro md
  induction md with
  | nil => exact List.Sublist.refl _
  | cons e tl ih =>
    simp only [removeKey]
    split_ifs with h1
    · exact List.Sublist.cons _ ih
    · exact List.Sublist.cons₂ _ ih

theorem removeKey_key_not_mem (k : String) :
    ∀ md : List Entry, k ∉ (removeKey md k).map (fun e => e.file_name) := by
  intro md
  induction md with
  | nil => simp [removeKey]
  | cons e tl ih =>
    simp only [removeKey]
    split_ifs with h1
    · exact ih
    · simp only [List.map_cons, List.mem_cons]
      rintro (h | h)
      · exact h1 h.symm
      · exact ih h

theorem upsert_preserves_unique (md : List Entry) (e : Entry)
    (h : UniqueKeys md) : UniqueKeys (upsert md e) := by
  unfold UniqueKeys upsert at *
  rw [List.map_append]
  rw [List.nodup_append]
  refine ⟨(removeKey_keys_sublist e.file_name md).nodup h, List.nodup_singleton _, ?_⟩
  intro x hx hy
  simp only [List.map_cons, List.map_nil, List.mem_singleton] at hy
  subst hy
  exact removeKey_key_not_mem e.file_name md hx

theorem removeKey_filter_self (k : String) :
    ∀ md : List Entry,
      (removeKey md k).filter (fun x => decide (x.file_name = k)) = [] := by
  intro md
  induction md with
  | nil => rfl
  | cons e tl ih =>
    simp only [removeKey]
    split_ifs with h1
    · exact ih
    · simp only [List.filter_cons, decide_eq_true_eq]
      rw [if_neg h1]
      exact ih

/-- Claim C5: starting from any ledger satisfying the uniqueness invariant, any
sequence of upserts leaves at most one record per `file_name`; moreover a
single upsert removes every existing record with the new record's key and
appends the new record, so the records carrying that key afterwards are
exactly the new record. -/
theorem upsert_unique_c5 (md : List Entry) (es : List Entry) (e : Entry) :
    (UniqueKeys md → UniqueKeys (es.foldl upsert md)) ∧
      (upsert md e).filter (fun x => decide (x.file_name = e.file_name)) = [e] := by
  constructor
  · intro h
    induction es generalizing md with
    | nil => exact h
    | cons x xs ih =>
      exact ih (upsert md x) (upsert_preserves_unique md x h)
  · unfold upsert
    rw [List.filter_append, removeKey_filter_self]
    simp

/-- Witness for C5 at a concrete ledger and upsert sequence. -/
theorem upsert_unique_c5_witness :
    UniqueKeys [(⟨"data/a.wav", some "h1", "", ""⟩ : Entry)] ∧
      UniqueKeys
        ([⟨"data/a.wav", some "h2", "", ""⟩,
          (⟨"data/a.wav", some "h3", "", ""⟩ : Entry)].foldl upsert
          [⟨"data/a.wav", some "h1", "", ""⟩]) ∧
      (upsert [⟨"data/a.wav", some "h1", "", ""⟩]
          ⟨"data/a.wav", some "h2", "", ""⟩).filter
        (fun x => decide (x.file_name = "data/a.wav")) =
        [⟨"data/a.wav", some "h2", "", ""⟩] := by
  refine ⟨by decide, ?_, ?_⟩
  · exact (upsert_unique_c5 [⟨"data/a.wav", some "h1", "", ""⟩]
      [⟨"data/a.wav", some "h2", "", ""⟩, ⟨"data/a.wav", some "h3", "", ""⟩]
      ⟨"data/a.wav", some "h2", "", ""⟩).1 (by decide)
  · exact (upsert_unique_c5 [⟨"data/a.wav", some "h1", "", ""⟩] []
      ⟨"data/a.wav", some "h2", "", ""⟩).2

/-- Claim C1: `save_metadata` truncates the target file in place and then writes
the records one line at a time, so a reader (or a crash) between the
truncation and the first write observes an empty file — neither the
complete old contents nor the complete new contents.  Here the store
previously held the serialized old ledger `["data/a.wav"]`, the new ledger
serializes to `["data/b.wav"]`, and the empty file is a visible
intermediate state distinct from both. -/
theorem save_not_atomic_c1 :
    [] ∈ save_metadata_states (fun e => e.file_name)
        [⟨"data/b.wav", some "h2", "", ""⟩] ∧
      ([] : List String) ≠ ["data/a.wav"] ∧
      ([] : List String) ≠ ["data/b.wav"] := by
  refine ⟨?_, by decide, by decide⟩
  simp [save_metadata_states, List.range_succ]

/-- Claim C4: `process_transcription` in `app/transcribe_improved.py` clears the
metadata file before dispatching workers and each worker appends only its
own successful result; the merged ledger is never saved (the call is
commented out).  With a ledger holding a record that already has a
transcript (`a.wav`) and one untranscribed record (`b.wav`) whose
transcription fails, the on-disk ledger after the failed batch is empty:
the transcribed record is lost and a rerun cannot select `b.wav` either. -/
theorem improved_transcribe_loses_records_c4 :
    process_transcription_improved_disk (fun _ => none) "root"
        [⟨"a.wav", "hello", ["commercial"]⟩, ⟨"b.wav", "", []⟩] = [] ∧
      (⟨"a.wav", "hello", ["commercial"]⟩ : Entry2) ∈
        [⟨"a.wav", "hello", ["commercial"]⟩, (⟨"b.wav", "", []⟩ : Entry2)] := by
  exact ⟨rfl, by decide⟩

/-- Claim C10: the record-store existence check converts any database error into
`false` instead of propagating it, and reports the queried row's presence
otherwise, so a failing store makes every item look not-yet-downloaded and
the caller proceeds to re-download instead of aborting. -/
theorem db_error_returns_false_c10 :
    (∀ msg : String, is_video_downloaded (Except.error msg) = false) ∧
      (∀ b : Bool, is_video_downloaded (Except.ok b) = b) :=
  ⟨fun _ => rfl, fun _ => rfl⟩

end CrawlPy

namespace CrawlPy

theorem parseLines_eq_none {α : Type} (parse : String → Option α) :
    ∀ (ls : List String) (l : String), l ∈ ls → parse l = none →
      parseLines parse ls = none := by
  intro ls
  induction ls with
  | nil => intro l h; exact absurd h (List.not_mem_nil l)
  | cons x xs ih =>
    intro l hmem hnone
    rcases List.mem_cons.mp hmem with h | h
    · subst h
      simp only [parseLines, hnone]
    · simp only [parseLines]
      cases parse x with
      | none => rfl
      | some e => rw [ih l h hnone]; rfl

/-- Claim C6 (amended): the ingest-side loader (`process_audio_files`) drops
blank lines, but a malformed non-blank line does not abort it — the
exception is caught and the loader silently yields the empty record
sequence; only the transcription-side `load_metadata` aborts with a
reported parse error when some line (a blank line included, since it also
fails `json.loads`) does not parse. -/
theorem load_behavior_c6 :
    (∀ (α : Type) (parse : String → Option α) (lines : List String),
        load_metadata_preprocess parse lines =
          load_metadata_preprocess parse
            (lines.filter (fun l => pyStrip l ≠ ""))) ∧
      (∀ (α : Type) (parse : String → Option α) (lines : List String)
          (l : String), l ∈ lines → pyStrip l ≠ "" → parse (pyStrip l) = none →
          load_metadata_preprocess parse lines = []) ∧
      (∀ (α : Type) (parse : String → Option α) (lines : List String)
          (l : String), l ∈ lines → parse l = none →
          load_metadata_transcribe parse lines =
            Except.error "Error loading metadata") := by
  refine ⟨?_, ?_, ?_⟩
  · intro α parse lines
    simp [load_metadata_preprocess, List.filter_filter]
  · intro α parse lines l hmem htrim hnone
    unfold load_metadata_preprocess
    rw [parseLines_eq_none (fun l => parse (pyStrip l))
      (lines.filter (fun l => pyStrip l ≠ "")) l
      (List.mem_filter.mpr ⟨hmem, by simpa using htrim⟩) (by simpa using hnone)]
  · intro α parse lines l hmem hnone
    unfold load_metadata_transcribe
    rw [parseLines_eq_none parse lines l hmem hnone]

/-- Witness for C6 (amended) on the specification's own truncated example
line: the ingest-side loader returns the empty sequence, and the
transcription-side loader returns a parse error. -/
theorem load_behavior_c6_witness :
    load_metadata_preprocess jsonObjectLine ["\x7b\"file_name\": \"a.wav\""] = [] ∧
      load_metadata_transcribe jsonObjectLine ["\x7b\"file_name\": \"a.wav\""] =
        Except.error "Error loading metadata" := by
  constructor
  · exact load_behavior_c6.2.1 Unit jsonObjectLine
      ["\x7b\"file_name\": \"a.wav\""] "\x7b\"file_name\": \"a.wav\""
      (List.mem_singleton.mpr rfl) (by decide) (by decide)
  · exact load_behavior_c6.2.2 Unit jsonObjectLine
      ["\x7b\"file_name\": \"a.wav\""] "\x7b\"file_name\": \"a.wav\""
      (List.mem_singleton.mpr rfl) (by decide)

/-- Counterexample to C6 as stated: a ledger file whose single line is the
truncated JSON object of the specification's example makes the ingest-side
loader return the empty sequence — its return type carries no error at
all, so nothing aborts and an empty sequence is silently produced where
the claim requires the load to abort with a reported parse error. -/
theorem load_silent_empty_counterexample_c6 :
    load_metadata_preprocess jsonObjectLine ["\x7b\"file_name\": \"a.wav\""] = [] ∧
      jsonObjectLine "\x7b\"file_name\": \"a.wav\"" = none ∧
      pyStrip "\x7b\"file_name\": \"a.wav\"" ≠ "" := by
  refine ⟨by decide, by decide, by decide⟩

theorem takeWhile_prepend_stop :
    ∀ l1 l2 : List Char, (∀ c ∈ l1, c ≠ '_') →
      (l1 ++ '_' :: l2).takeWhile (fun c => c ≠ '_') = l1 ∧
        (l1 ++ '_' :: l2).dropWhile (fun c => c ≠ '_') = '_' :: l2 := by
  intro l1
  induction l1 with
  | nil =>
    intro l2 _
    constructor
    · rw [List.nil_append, List.takeWhile_cons, if_neg (by simp)]
    · rw [List.nil_append, List.dropWhile_cons, if_neg (by simp)]
  | cons a l ih =>
    intro l2 hall
    have ha : a ≠ '_' := hall a (List.mem_cons_self a l)
    have ihl := ih l2 (fun c hc => hall c (List.mem_cons_of_mem a hc))
    constructor
    · rw [List.cons_append, List.takeWhile_cons, if_pos (by simpa using ha), ihl.1]
    · rw [List.cons_append, List.dropWhile_cons, if_pos (by simpa using ha)]
      exact ihl.2

theorem mem_takeWhile_ne_underscore :
    ∀ (l : List Char) (c : Char),
      c ∈ l.takeWhile (fun c => c ≠ '_') → c ≠ '_' := by
  intro l
  induction l with
  | nil => intro c h; exact absurd h (List.not_mem_nil c)
  | cons a l ih =>
    intro c h
    rw [List.takeWhile_cons] at h
    by_cases ha : a = '_'
    · rw [if_neg (by simp [ha])] at h
      exact absurd h (List.not_mem_nil c)
    · rw [if_pos (by simpa using ha)] at h
      rcases List.mem_cons.mp h with h | h
      · subst h; exact ha
      · exact ih c h

theorem dropWhile_head_underscore :
    ∀ (l : List Char) (x : Char) (xs : List Char),
      l.dropWhile (fun c => c ≠ '_') = x :: xs → x = '_' := by
  intro l
  induction l with
  | nil => intro x xs h; cases h
  | cons a l ih =>
    intro x xs h
    rw [List.dropWhile_cons] at h
    by_cases ha : a = '_'
    · rw [if_neg (by simp [ha])] at h
      injection h with h1 h2
      rw [← h1]
      exact ha
    · rw [if_pos (by simpa using ha)] at h
      exact ih x xs h

end CrawlPy

namespace CrawlPy

/-- Claim C9: when the name has at most three underscores and the regex
matches — the part before the last underscore nonempty and newline-free,
the part after it nonempty (and underscore-free, being after the last
underscore) — `sanitize_filename` splits the name at that last underscore
and the returned (id, title) pair joined by the separator reconstructs the
original name exactly; every name with more than three underscores or
without a matching split passes through unsplit, paired with the empty
string. -/
theorem sanitize_cases_c9 (cs : List Char) :
    (underscoreCount cs ≤ 3 → HasMatch cs →
        (sanitize_filename cs).1 ++ '_' :: (sanitize_filename cs).2 = cs ∧
          (sanitize_filename cs).1 ≠ [] ∧ (sanitize_filename cs).2 ≠ [] ∧
          '_' ∉ (sanitize_filename cs).2) ∧
      (underscoreCount cs > 3 ∨ ¬HasMatch cs →
        sanitize_filename cs = (cs, [])) := by
  constructor
  · rintro hc ⟨a, b, hsplit, ha, hb, hbu, hanl⟩
    have hrev : cs.reverse = b.reverse ++ '_' :: a.reverse := by
      rw [hsplit]
      simp
    have hball : ∀ c ∈ b.reverse, c ≠ '_' := by
      intro c hcmem he
      exact hbu (he ▸ List.mem_reverse.mp hcmem)
    have htw := takeWhile_prepend_stop b.reverse a.reverse hball
    have hres : sanitize_filename cs = (a, b) := by
      simp only [sanitize_filename]
      rw [if_pos hc, hrev, htw.1, htw.2]
      have hg : ¬(('_' :: a.reverse) = [] ∨ b.reverse = [] ∨
          ('_' :: a.reverse).tail = [] ∨ '\n' ∈ ('_' :: a.reverse).tail) := by
        simp [ha, hb, hanl]
      rw [if_neg hg]
      simp
    rw [hres]
    exact ⟨hsplit.symm, ha, hb, hbu⟩
  · intro h
    by_cases hc : underscoreCount cs ≤ 3
    · rcases h with h | h
      · exact absurd hc (not_le.mpr h)
      · simp only [sanitize_filename]
        rw [if_pos hc]
        by_cases hg : cs.reverse.dropWhile (fun c => c ≠ '_') = [] ∨
            cs.reverse.takeWhile (fun c => c ≠ '_') = [] ∨
            (cs.reverse.dropWhile (fun c => c ≠ '_')).tail = [] ∨
            '\n' ∈ (cs.reverse.dropWhile (fun c => c ≠ '_')).tail
        · rw [if_pos hg]
        · exfalso
          apply h
          push_neg at hg
          obtain ⟨hg1, hg2, hg3, hg4⟩ := hg
          cases hrest : cs.reverse.dropWhile (fun c => c ≠ '_') with
          | nil => exact absurd hrest hg1
          | cons x xs =>
            have hx : x = '_' :=
              dropWhile_head_underscore cs.reverse x xs hrest
            subst hx
            obtain ⟨tw, htw1⟩ :
                ∃ tw, cs.reverse.takeWhile (fun c => c ≠ '_') = tw := ⟨_, rfl⟩
            rw [htw1] at hg2
            have hdecomp : tw ++ '_' :: xs = cs.reverse := by
              rw [← htw1, ← hrest]
              exact List.takeWhile_append_dropWhile _ _
            have h2 : cs = xs.reverse ++ '_' :: tw.reverse := by
              rw [← List.reverse_reverse cs, ← hdecomp]
              simp
            rw [hrest] at hg3 hg4
            refine ⟨xs.reverse, tw.reverse, h2, ?_, ?_, ?_, ?_⟩
            · simpa using hg3
            · simpa using hg2
            · intro hmem
              have hm : '_' ∈ cs.reverse.takeWhile (fun c => c ≠ '_') := by
                rw [htw1]
                exact List.mem_reverse.mp hmem
              exact mem_takeWhile_ne_underscore cs.reverse '_' hm rfl
            · intro hmem
              exact hg4 (by simpa using List.mem_reverse.mp hmem)
    · simp only [sanitize_filename]
      rw [if_neg hc]

/-- Witness for C9: `ab_cd` splits into `ab` and `cd`; the newline-bearing
name `a_b\n` splits into `a` and `b\n` (Python's `[^_]` matches the
newline), and the joined parts reconstruct the original exactly; a name
with four underscores passes through unsplit. -/
theorem sanitize_cases_c9_witness :
    ((sanitize_filename ['a', 'b', '_', 'c', 'd']).1 ++ '_' ::
        (sanitize_filename ['a', 'b', '_', 'c', 'd']).2 =
          ['a', 'b', '_', 'c', 'd'] ∧
        (sanitize_filename ['a', 'b', '_', 'c', 'd']).1 ≠ [] ∧
        (sanitize_filename ['a', 'b', '_', 'c', 'd']).2 ≠ [] ∧
        '_' ∉ (sanitize_filename ['a', 'b', '_', 'c', 'd']).2) ∧
      ((sanitize_filename ['a', '_', 'b', '\n']).1 ++ '_' ::
          (sanitize_filename ['a', '_', 'b', '\n']).2 =
            ['a', '_', 'b', '\n'] ∧
        (sanitize_filename ['a', '_', 'b', '\n']).1 ≠ [] ∧
        (sanitize_filename ['a', '_', 'b', '\n']).2 ≠ [] ∧
        '_' ∉ (sanitize_filename ['a', '_', 'b', '\n']).2) ∧
      sanitize_filename ['a', '_', 'b', '_', 'c', '_', 'd', '_', 'e'] =
        (['a', '_', 'b', '_', 'c', '_', 'd', '_', 'e'], []) := by
  refine ⟨?_, ?_, ?_⟩
  · exact (sanitize_cases_c9 ['a', 'b', '_', 'c', 'd']).1 (by decide)
      ⟨['a', 'b'], ['c', 'd'], by decide, by decide, by decide, by decide,
        by decide⟩
  · exact (sanitize_cases_c9 ['a', '_', 'b', '\n']).1 (by decide)
      ⟨['a'], ['b', '\n'], by decide, by decide, by decide, by decide,
        by decide⟩
  · exact (sanitize_cases_c9 ['a', '_', 'b', '_', 'c', '_', 'd', '_', 'e']).2
      (Or.inl (by decide))

end CrawlPy

namespace CrawlPy

theorem applyResults_char (g : Entry → Option String) :
    ∀ md : List Entry,
      applyResults md ((md.filter (fun e => e.transcription = "")).map g) =
        md.map (fun e =>
          if e.transcription = "" then applyOne (g e) e else e) := by
  intro md
  induction md with
  | nil => rfl
  | cons e es ih =>
    by_cases he : e.transcription = ""
    · rw [List.filter_cons_of_pos (by simpa using he), List.map_cons]
      simp only [applyResults, if_pos he, List.map_cons]
      rw [ih]
    · rw [List.filter_cons_of_neg (by simpa using he)]
      simp only [applyResults, if_neg he, List.map_cons]
      rw [ih]

theorem process_transcription_char (f : String → Option String)
    (dir : String) (md : List Entry) :
    process_transcription f dir md =
      md.map (fun e =>
        if e.transcription = "" then
          applyOne (f (pathJoin dir e.file_name)) e
        else e) := by
  unfold process_transcription
  exact applyResults_char (fun e => f (pathJoin dir e.file_name)) md

/-- Claim C7: in a transcription batch, each record's outcome depends only on
its own worker result.  The merged ledger keeps its length; a record that
already has a transcript is untouched; a record whose worker raises or
finds the file missing (result `none`) is returned unchanged with its
empty transcript, still eligible for retry; and a record whose worker
returns a non-empty transcript receives exactly that transcript — all
regardless of what happens to every other file of the batch, so one
file's exception neither aborts the batch nor disturbs the other
records' transcripts. -/
theorem transcription_isolation_c7 (f : String → Option String)
    (dir : String) (metadata : List Entry) (i : Nat) (e : Entry) (t : String)
    (hi : metadata[i]? = some e) :
    (process_transcription f dir metadata).length = metadata.length ∧
      (e.transcription ≠ "" →
        (process_transcription f dir metadata)[i]? = some e) ∧
      (e.transcription = "" → f (pathJoin dir e.file_name) = none →
        (process_transcription f dir metadata)[i]? = some e) ∧
      (e.transcription = "" → f (pathJoin dir e.file_name) = some t →
        t ≠ "" →
        (process_transcription f dir metadata)[i]? =
          some (setTranscription e t)) := by
  rw [process_transcription_char]
  refine ⟨List.length_map _ _, ?_, ?_, ?_⟩
  · intro hne
    rw [List.getElem?_map, hi]
    simp only [Option.map_some']
    rw [if_neg hne]
  · intro hemp hf
    rw [List.getElem?_map, hi]
    simp only [Option.map_some']
    rw [if_pos hemp]
    simp [applyOne, hf]
  · intro hemp hf hne
    rw [List.getElem?_map, hi]
    simp only [Option.map_some']
    rw [if_pos hemp]
    simp only [applyOne, hf]
    rw [if_neg hne]

/-- Witness for C7: a two-record batch where the first file's
transcription raises (`none`) and the second succeeds — the first record
keeps its empty transcript, the second receives its transcript. -/
theorem transcription_isolation_c7_witness :
    (process_transcription
        (fun p => if p = "root/b.wav" then some "hello" else none) "root"
        [⟨"a.wav", none, "", ""⟩, ⟨"b.wav", none, "", ""⟩])[0]? =
      some ⟨"a.wav", none, "", ""⟩ ∧
      (process_transcription
          (fun p => if p = "root/b.wav" then some "hello" else none) "root"
          [⟨"a.wav", none, "", ""⟩, ⟨"b.wav", none, "", ""⟩])[1]? =
        some ⟨"b.wav", none, "", "hello"⟩ := by
  constructor
  · exact (transcription_isolation_c7
      (fun p => if p = "root/b.wav" then some "hello" else none) "root"
      [⟨"a.wav", none, "", ""⟩, ⟨"b.wav", none, "", ""⟩] 0
      ⟨"a.wav", none, "", ""⟩ "hello" rfl).2.2.1 rfl (by decide)
  · exact (transcription_isolation_c7
      (fun p => if p = "root/b.wav" then some "hello" else none) "root"
      [⟨"a.wav", none, "", ""⟩, ⟨"b.wav", none, "", ""⟩] 1
      ⟨"b.wav", none, "", ""⟩ "hello" rfl).2.2.2 rfl (by decide) (by decide)

end CrawlPy

namespace CrawlPy

theorem stepFile_id_none {C : Type} (env : PEnv C) (root : String)
    (s : PState C) (p : String) (hc : fsLookup s.files p = none) :
    stepFile env root s p = s := by
  simp [stepFile, hc]

theorem stepFile_id_skip {C : Type} (env : PEnv C) (root : String)
    (s : PState C) (p : String) (c : C) (hc : fsLookup s.files p = some c)
    (hsk : skipCheck env s.metadata p c = true) :
    stepFile env root s p = s := by
  simp [stepFile, hc, hsk]

theorem stepFile_id_convfail {C : Type} (env : PEnv C) (root : String)
    (s : PState C) (p : String) (c : C) (hc : fsLookup s.files p = some c)
    (hsk : skipCheck env s.metadata p c = false) (hcv : env.convert c = none) :
    stepFile env root s p = s := by
  simp [stepFile, hc, hsk, hcv]

theorem stepFile_processed {C : Type} (env : PEnv C) (root : String)
    (s : PState C) (p : String) (c d : C) (hc : fsLookup s.files p = some c)
    (hsk : skipCheck env s.metadata p c = false)
    (hcv : env.convert c = some d) :
    stepFile env root s p =
      ⟨fsErase (fsInsert s.files (outPath root p) d) p,
        upsert s.metadata
          ⟨ledKey p,
            (fsLookup (fsInsert s.files (outPath root p) d)
              (outPath root p)).map env.hash, origTitle p, ""⟩⟩ := by
  simp [stepFile, hc, hsk, hcv]

theorem skipCheck_congr {C : Type} (env : PEnv C) (md md' : List Entry)
    (p : String) (c : C)
    (h : findEntry md' (ledKey p) = findEntry md (ledKey p)) :
    skipCheck env md' p c = skipCheck env md p c := by
  unfold skipCheck
  rw [h]

theorem stepFile_preserves_lookup {C : Type} (env : PEnv C) (root : String)
    (s : PState C) (q p : String) (hqp : q ≠ p) (hop : outPath root q ≠ p) :
    fsLookup (stepFile env root s q).files p = fsLookup s.files p := by
  cases hc : fsLookup s.files q with
  | none => rw [stepFile_id_none env root s q hc]
  | some c =>
    cases hsk : skipCheck env s.metadata q c with
    | true => rw [stepFile_id_skip env root s q c hc hsk]
    | false =>
      cases hcv : env.convert c with
      | none => rw [stepFile_id_convfail env root s q c hc hsk hcv]
      | some d =>
        rw [stepFile_processed env root s q c d hc hsk hcv]
        show fsLookup (fsErase (fsInsert s.files (outPath root q) d) q) p =
          fsLookup s.files p
        rw [fsLookup_erase_ne q p hqp]
        exact fsLookup_insert_ne s.files (outPath root q) p d hop

theorem stepFile_preserves_findEntry {C : Type} (env : PEnv C) (root : String)
    (s : PState C) (q : String) (k : String) (hk : k ≠ ledKey q) :
    findEntry (stepFile env root s q).metadata k = findEntry s.metadata k := by
  cases hc : fsLookup s.files q with
  | none => rw [stepFile_id_none env root s q hc]
  | some c =>
    cases hsk : skipCheck env s.metadata q c with
    | true => rw [stepFile_id_skip env root s q c hc hsk]
    | false =>
      cases hcv : env.convert c with
      | none => rw [stepFile_id_convfail env root s q c hc hsk hcv]
      | some d =>
        rw [stepFile_processed env root s q c d hc hsk hcv]
        exact findEntry_upsert_ne s.metadata
          ⟨ledKey q,
            (fsLookup (fsInsert s.files (outPath root q) d)
              (outPath root q)).map env.hash, origTitle q, ""⟩ k hk

theorem stepFile_transfer {C : Type} (env : PEnv C) (root : String)
    (s s' : PState C) (p : String)
    (hl : fsLookup s'.files p = fsLookup s.files p)
    (he : findEntry s'.metadata (ledKey p) = findEntry s.metadata (ledKey p))
    (hst : stepFile env root s p = s) :
    stepFile env root s' p = s' := by
  cases hc : fsLookup s.files p with
  | none => exact stepFile_id_none env root s' p (hl.trans hc)
  | some c =>
    have hl' : fsLookup s'.files p = some c := hl.trans hc
    have hskc := skipCheck_congr env s.metadata s'.metadata p c he
    cases hsk : skipCheck env s.metadata p c with
    | true => exact stepFile_id_skip env root s' p c hl' (hskc.trans hsk)
    | false =>
      cases hcv : env.convert c with
      | none =>
        exact stepFile_id_convfail env root s' p c hl' (hskc.trans hsk) hcv
      | some d =>
        exfalso
        have h2 : fsLookup (stepFile env root s p).files p = none := by
          rw [stepFile_processed env root s p c d hc hsk hcv]
          exact fsLookup_erase_self p _
        rw [hst, hc] at h2
        exact Option.noConfusion h2

theorem stepFile_stable_self {C : Type} (env : PEnv C) (root : String)
    (s : PState C) (p : String) :
    Stable env root (stepFile env root s p) p := by
  unfold Stable
  cases hc : fsLookup s.files p with
  | none =>
    have hs := stepFile_id_none env root s p hc
    rw [hs]
    exact hs
  | some c =>
    cases hsk : skipCheck env s.metadata p c with
    | true =>
      have hs := stepFile_id_skip env root s p c hc hsk
      rw [hs]
      exact hs
    | false =>
      cases hcv : env.convert c with
      | none =>
        have hs := stepFile_id_convfail env root s p c hc hsk hcv
        rw [hs]
        exact hs
      | some d =>
        apply stepFile_id_none
        rw [stepFile_processed env root s p c d hc hsk hcv]
        exact fsLookup_erase_self p _

theorem stable_preserved {C : Type} (env : PEnv C) (root : String)
    (s : PState C) (p q : String) (hst : Stable env root s p) (hqp : q ≠ p)
    (hop : outPath root q ≠ p) (hkey : ledKey q ≠ ledKey p) :
    Stable env root (stepFile env root s q) p :=
  stepFile_transfer env root s (stepFile env root s q) p
    (stepFile_preserves_lookup env root s q p hqp hop)
    (stepFile_preserves_findEntry env root s q (ledKey p) hkey.symm)
    hst

theorem run_preserves_stable {C : Type} (env : PEnv C) (root : String) :
    ∀ (xs : List String) (s : PState C) (p : String),
      Stable env root s p →
      (∀ q ∈ xs, q ≠ p ∧ outPath root q ≠ p ∧ ledKey q ≠ ledKey p) →
      Stable env root (xs.foldl (stepFile env root) s) p := by
  intro xs
  induction xs with
  | nil => intro s p h _; exact h
  | cons x xs ih =>
    intro s p h hall
    rw [List.foldl_cons]
    obtain ⟨h1, h2, h3⟩ := hall x (List.mem_cons_self x xs)
    exact ih (stepFile env root s x) p
      (stable_preserved env root s p x h h1 h2 h3)
      (fun q hq => hall q (List.mem_cons_of_mem x hq))

theorem run_all_stable {C : Type} (env : PEnv C) (root : String) :
    ∀ (paths : List String) (s0 : PState C),
      (paths.map ledKey).Nodup →
      (∀ p ∈ paths, ∀ q ∈ paths, outPath root p ≠ q) →
      ∀ p ∈ paths,
        Stable env root (paths.foldl (stepFile env root) s0) p := by
  intro paths
  induction paths with
  | nil => intro s0 _ _ p hp; exact absurd hp (List.not_mem_nil p)
  | cons x xs ih =>
    intro s0 hkeys hout p hp
    have hcons : (ledKey x :: xs.map ledKey).Nodup := by simpa using hkeys
    have hx_notin : ledKey x ∉ xs.map ledKey := (List.nodup_cons.mp hcons).1
    have hkeys' : (xs.map ledKey).Nodup := (List.nodup_cons.mp hcons).2
    rw [List.foldl_cons]
    rcases List.mem_cons.mp hp with hpx | hpin
    · subst hpx
      apply run_preserves_stable env root xs (stepFile env root s0 p) p
        (stepFile_stable_self env root s0 p)
      intro q hq
      have hkq : ledKey q ≠ ledKey p := by
        intro h
        exact hx_notin (h ▸ List.mem_map_of_mem ledKey hq)
      refine ⟨fun hqp => hkq (by rw [hqp]), ?_, hkq⟩
      exact hout q (List.mem_cons_of_mem p hq) p (List.mem_cons_self p xs)
    · exact ih (stepFile env root s0 x) hkeys'
        (fun a ha b hb =>
          hout a (List.mem_cons_of_mem x ha) b (List.mem_cons_of_mem x hb))
        p hpin

theorem run_of_all_stable {C : Type} (env : PEnv C) (root : String) :
    ∀ (paths : List String) (s : PState C),
      (∀ p ∈ paths, Stable env root s p) →
      paths.foldl (stepFile env root) s = s := by
  intro paths
  induction paths with
  | nil => intro s _; rfl
  | cons x xs ih =>
    intro s hall
    have hx : stepFile env root s x = s := hall x (List.mem_cons_self x xs)
    rw [List.foldl_cons, hx]
    exact ih s (fun p hp => hall p (List.mem_cons_of_mem x hp))

end CrawlPy

namespace CrawlPy

/-- Claim C2 (amended): rerunning the ingest coordinator on the same candidate
list with no changes leaves the entire state — metadata ledger and file
store — exactly as after the first run, provided the candidates derive
pairwise-distinct ledger keys and no candidate's canonical output path is
itself a candidate path.  Processed candidates were deleted and are
skipped by the failed hash, hash-matched candidates are skipped again by
the unchanged record, and failed conversions fail again without touching
the ledger. -/
theorem ingest_idempotent_c2 {C : Type} (env : PEnv C) (root : String)
    (paths : List String) (s0 : PState C)
    (hkeys : (paths.map ledKey).Nodup)
    (hout : ∀ p ∈ paths, ∀ q ∈ paths, outPath root p ≠ q) :
    process_audio_files env root paths
        (process_audio_files env root paths s0) =
      process_audio_files env root paths s0 := by
  unfold process_audio_files
  exact run_of_all_stable env root paths _
    (run_all_stable env root paths s0 hkeys hout)

/-- Witness for C2 (amended): one candidate, distinct key, disjoint output
path; the second run is the identity on the state left by the first. -/
theorem ingest_idempotent_c2_witness :
    process_audio_files
        (⟨fun c => c, fun c => if c = "c" then some "d" else none⟩ :
          PEnv String) "root" ["d/a_1.wav"]
        (process_audio_files
          (⟨fun c => c, fun c => if c = "c" then some "d" else none⟩ :
            PEnv String) "root" ["d/a_1.wav"] ⟨[("d/a_1.wav", "c")], []⟩) =
      process_audio_files
        (⟨fun c => c, fun c => if c = "c" then some "d" else none⟩ :
          PEnv String) "root" ["d/a_1.wav"] ⟨[("d/a_1.wav", "c")], []⟩ := by
  exact ingest_idempotent_c2
    (⟨fun c => c, fun c => if c = "c" then some "d" else none⟩ : PEnv String)
    "root" ["d/a_1.wav"] ⟨[("d/a_1.wav", "c")], []⟩ (by decide) (by decide)

/-- Counterexample to C2 as stated: three candidates sharing the derived
id `s` where the second candidate's raw bytes equal the converted bytes of
the first.  In the first run the first candidate is processed, the second
is then skipped by the hash check and left on disk, and the third
overwrites the shared ledger record.  The second run re-examines the
surviving second candidate, whose hash no longer matches the overwritten
record, so it is re-converted and the ledger after the second run differs
from the ledger after the first — the rerun is not idempotent. -/
theorem ingest_not_idempotent_counterexample_c2 :
    (process_audio_files
        (⟨fun c => c,
          fun c =>
            if c = "cq" then some "cp"
            else if c = "cp" then some "dp"
            else if c = "cr" then some "dr"
            else none⟩ : PEnv String) "root"
        ["d/s_1.wav", "d/s_2.wav", "d/s_3.wav"]
        (process_audio_files
          (⟨fun c => c,
            fun c =>
              if c = "cq" then some "cp"
              else if c = "cp" then some "dp"
              else if c = "cr" then some "dr"
              else none⟩ : PEnv String) "root"
          ["d/s_1.wav", "d/s_2.wav", "d/s_3.wav"]
          ⟨[("d/s_1.wav", "cq"), ("d/s_2.wav", "cp"), ("d/s_3.wav", "cr")],
            []⟩)).metadata ≠
      (process_audio_files
          (⟨fun c => c,
            fun c =>
              if c = "cq" then some "cp"
              else if c = "cp" then some "dp"
              else if c = "cr" then some "dr"
              else none⟩ : PEnv String) "root"
          ["d/s_1.wav", "d/s_2.wav", "d/s_3.wav"]
          ⟨[("d/s_1.wav", "cq"), ("d/s_2.wav", "cp"), ("d/s_3.wav", "cr")],
            []⟩).metadata := by
  decide

/-- Claim C3 (amended): the idempotence short-circuit compares the stored
`content_hash` against the hash of the candidate's SOURCE bytes, not
against the canonical-form hash: a candidate is skipped — zero normalizer
invocations, state untouched — exactly when its derived key has an
existing record whose stored `shasum` equals the hash of the candidate's
raw bytes. -/
theorem skip_source_hash_c3 {C : Type} (env : PEnv C) (root : String)
    (s : PState C) (p : String) (c : C) (e : Entry)
    (hlk : fsLookup s.files p = some c)
    (hent : findEntry s.metadata (ledKey p) = some e)
    (hhash : e.shasum = some (env.hash c)) :
    stepFile env root s p = s ∧ stepConvCount env s p = 0 := by
  have hskip : skipCheck env s.metadata p c = true := by
    unfold skipCheck
    rw [hent]
    simp [hhash]
  refine ⟨stepFile_id_skip env root s p c hlk hskip, ?_⟩
  simp [stepConvCount, hlk, hskip]

/-- Witness for C3 (amended): the ledger record for `data/x.wav` stores
the hash of the candidate's raw bytes, so the candidate is skipped with
zero conversions. -/
theorem skip_source_hash_c3_witness :
    stepFile
        (⟨fun c => c, fun c => if c = "raw" then some "canon" else none⟩ :
          PEnv String) "root"
        ⟨[("in/x_1.wav", "raw")], [⟨"data/x.wav", some "raw", "t", ""⟩]⟩
        "in/x_1.wav" =
      ⟨[("in/x_1.wav", "raw")], [⟨"data/x.wav", some "raw", "t", ""⟩]⟩ ∧
      stepConvCount
        (⟨fun c => c, fun c => if c = "raw" then some "canon" else none⟩ :
          PEnv String)
        ⟨[("in/x_1.wav", "raw")], [⟨"data/x.wav", some "raw", "t", ""⟩]⟩
        "in/x_1.wav" = 0 := by
  exact skip_source_hash_c3
    (⟨fun c => c, fun c => if c = "raw" then some "canon" else none⟩ :
      PEnv String) "root"
    ⟨[("in/x_1.wav", "raw")], [⟨"data/x.wav", some "raw", "t", ""⟩]⟩
    "in/x_1.wav" "raw" ⟨"data/x.wav", some "raw", "t", ""⟩ (by decide)
    (by decide) (by decide)

/-- Counterexample to C3 as stated: candidate `in/x_1.wav` has raw bytes
`raw` whose canonical form is `canon`; the existing record for
`data/x.wav` stores exactly the canonical-form hash `canon`.  The claim
demands zero normalizer invocations and an unchanged record, but the code
hashes the raw source bytes (`raw` ≠ `canon`), misses the skip, invokes
the normalizer once, and rewrites the record (clearing its transcript). -/
theorem skip_canonical_hash_counterexample_c3 :
    (⟨fun c => c, fun c => if c = "raw" then some "canon" else none⟩ :
        PEnv String).convert "raw" = some "canon" ∧
      stepConvCount
        (⟨fun c => c, fun c => if c = "raw" then some "canon" else none⟩ :
          PEnv String)
        ⟨[("in/x_1.wav", "raw")],
          [⟨"data/x.wav", some "canon", "t", "hello"⟩]⟩ "in/x_1.wav" = 1 ∧
      (stepFile
          (⟨fun c => c, fun c => if c = "raw" then some "canon" else none⟩ :
            PEnv String) "root"
          ⟨[("in/x_1.wav", "raw")],
            [⟨"data/x.wav", some "canon", "t", "hello"⟩]⟩
          "in/x_1.wav").metadata ≠
        [⟨"data/x.wav", some "canon", "t", "hello"⟩] := by
  refine ⟨rfl, by decide, by decide⟩

/-- Claim C8: when the hash succeeds, the skip test misses and the normalizer
fails, the loop iteration leaves the ledger (and the whole state)
untouched: no record is written for the candidate and processing moves to
the next one. -/
theorem normalize_failure_no_mutation_c8 {C : Type} (env : PEnv C)
    (root : String) (s : PState C) (p : String) (c : C)
    (hlk : fsLookup s.files p = some c)
    (hskip : skipCheck env s.metadata p c = false)
    (hfail : env.convert c = none) :
    (stepFile env root s p).metadata = s.metadata ∧
      stepFile env root s p = s := by
  have h := stepFile_id_convfail env root s p c hlk hskip hfail
  exact ⟨by rw [h], h⟩

/-- Witness for C8: a fresh candidate whose conversion fails leaves the
empty ledger and the file store unchanged. -/
theorem normalize_failure_no_mutation_c8_witness :
    (stepFile (⟨fun c => c, fun _ => none⟩ : PEnv String) "root"
          ⟨[("in/a_1.wav", "raw")], []⟩ "in/a_1.wav").metadata =
        ([] : List Entry) ∧
      stepFile (⟨fun c => c, fun _ => none⟩ : PEnv String) "root"
          ⟨[("in/a_1.wav", "raw")], []⟩ "in/a_1.wav" =
        ⟨[("in/a_1.wav", "raw")], []⟩ := by
  exact normalize_failure_no_mutation_c8
    (⟨fun c => c, fun _ => none⟩ : PEnv String) "root"
    ⟨[("in/a_1.wav", "raw")], []⟩ "in/a_1.wav" "raw" (by decide) (by decide)
    (by decide)

end CrawlPy
